import Mathlib

/-
  Shallow embedding of smallchat (src/main.rs): a single-threaded chat
  server driven by readiness events.  Bytes are modelled as `Nat`, the
  TCP stream of each client as an oracle of future non-blocking write
  results (`sockW`), and a read-readiness event as a list of results of
  successive non-blocking read calls.  `Except Unit` models `?` / panic
  propagation out of `main`.
-/

namespace Smallchat

/- const BUFLEN: usize = 4096; -/
def BUFLEN : Nat := 4096

/- Result of one non-blocking `write` call on a client's stream. -/
inductive WriteRes where
  | ok (n : Nat)
  | wouldBlock
  | fatal
deriving DecidableEq

/- Result of one non-blocking `read` call on a client's stream.
   `bytes bs` is `Ok(bs.len())` filling `bs`; `closed` is `Ok(0)` on a
   non-empty slice (peer closed); `fatal` a non-WouldBlock error. -/
inductive ReadRes where
  | bytes (bs : List Nat)
  | wouldBlock
  | closed
  | fatal
deriving DecidableEq

/- struct OutboxItem { data: Rc<Vec<u8>>, cursor: usize } -/
structure OutboxItem where
  data : List Nat
  cursor : Nat
deriving DecidableEq

/- struct Client. `read_buf` plus `read_buf_start` are modelled as the
   list `readBuf` of the first `read_buf_start` bytes of the 4096-byte
   array (bytes above the cursor are never read by the program), so
   `read_buf_start = readBuf.length`.  The `listener: TcpStream` field
   is modelled by the oracle `sockW` of its future write results. -/
structure Client where
  nick : List Nat
  readBuf : List Nat
  outbox : List OutboxItem
  writable : Bool
  sockW : List WriteRes
deriving DecidableEq

/- The loop body of Client::flush_outbox.  Each iteration consumes one
   write result from the stream oracle; an exhausted oracle stops the
   loop (no further syscall results, same as WouldBlock).
     Ok(0)  => remove front item, break
     Ok(n)  => front cursor += n
     WouldBlock => break
     other error => propagate -/
def flushLoop : List WriteRes → List OutboxItem → Except Unit (List OutboxItem × List WriteRes)
  | ws, [] => .ok ([], ws)
  | [], q => .ok (q, [])
  | .ok 0 :: ws, _ :: q => .ok (q, ws)
  | .ok (n+1) :: ws, it :: q =>
      flushLoop ws ({ data := it.data, cursor := it.cursor + (n+1) } :: q)
  | .wouldBlock :: ws, q => .ok (q, ws)
  | .fatal :: _, _ => .error ()

/- fn flush_outbox(&mut self) -/
def Client.flushOutbox (c : Client) : Except Unit Client :=
  match flushLoop c.sockW c.outbox with
  | .error e => .error e
  | .ok (q, ws) => .ok { c with outbox := q, sockW := ws }

/- fn write(&mut self, data): push an OutboxItem with cursor 0, then
   flush if currently writable. -/
def Client.write (c : Client) (d : List Nat) : Except Unit Client :=
  let c' : Client := { c with outbox := c.outbox ++ [{ data := d, cursor := 0 }] }
  if c'.writable then c'.flushOutbox else .ok c'

/- struct Chat { clients: BTreeMap<Token, Client>, max_client: Token }.
   The BTreeMap is modelled as an association list sorted by ascending
   key (tokens are Nat). -/
structure Chat where
  clients : List (Nat × Client)
  maxClient : Nat
deriving DecidableEq

def Chat.new : Chat := { clients := [], maxClient := 0 }

/- BTreeMap::get / get_mut lookup. -/
def lookupC : Nat → List (Nat × Client) → Option Client
  | _, [] => none
  | k, kc :: rest => if kc.1 = k then some kc.2 else lookupC k rest

def Chat.getClient (chat : Chat) (k : Nat) : Option Client :=
  lookupC k chat.clients

/- In-place mutation through get_mut: replace the entry with key k. -/
def setC (k : Nat) (c : Client) : List (Nat × Client) → List (Nat × Client)
  | [] => []
  | kc :: rest => (if kc.1 = k then (k, c) else kc) :: setC k c rest

def Chat.setClient (chat : Chat) (k : Nat) (c : Client) : Chat :=
  { chat with clients := setC k c chat.clients }

/- BTreeMap::insert (keys kept in ascending order). -/
def insertSorted (k : Nat) (c : Client) : List (Nat × Client) → List (Nat × Client)
  | [] => [(k, c)]
  | kc :: rest =>
      if k < kc.1 then (k, c) :: kc :: rest
      else if k = kc.1 then (k, c) :: rest
      else kc :: insertSorted k c rest

/- The loop body of Chat::push_from: for every entry whose key differs
   from src, c.write(data.clone()).unwrap().  The Rc'd payload is the
   same value `d` for every recipient. -/
def writeAll (src : Nat) (d : List Nat) : List (Nat × Client) → Except Unit (List (Nat × Client))
  | [] => .ok []
  | (k, c) :: rest =>
      if k = src then
        match writeAll src d rest with
        | .error e => .error e
        | .ok rest' => .ok ((k, c) :: rest')
      else
        match c.write d with
        | .error e => .error e
        | .ok c' =>
            match writeAll src d rest with
            | .error e => .error e
            | .ok rest' => .ok ((k, c') :: rest')

/- fn push_from(&mut self, src, data) -/
def Chat.pushFrom (chat : Chat) (src : Nat) (d : List Nat) : Except Unit Chat :=
  match writeAll src d chat.clients with
  | .error e => .error e
  | .ok cs => .ok { chat with clients := cs }

/- <[u8]>::strip_prefix on byte slices. -/
def stripLead : List Nat → List Nat → Option (List Nat)
  | [], l => some l
  | _ :: _, [] => none
  | p :: ps, x :: xs => if p = x then stripLead ps xs else none

/- core::str::from_utf8 validity (RFC 3629). -/
def utf8Cont (b : Nat) : Bool := 0x80 ≤ b && b ≤ 0xBF

def utf8Valid : List Nat → Bool
  | [] => true
  | b :: rest =>
      if b ≤ 0x7F then utf8Valid rest
      else if 0xC2 ≤ b && b ≤ 0xDF then
        match rest with
        | c1 :: r => utf8Cont c1 && utf8Valid r
        | [] => false
      else if b = 0xE0 then
        match rest with
        | c1 :: c2 :: r => (0xA0 ≤ c1 && c1 ≤ 0xBF) && utf8Cont c2 && utf8Valid r
        | _ => false
      else if (0xE1 ≤ b && b ≤ 0xEC) || b = 0xEE || b = 0xEF then
        match rest with
        | c1 :: c2 :: r => utf8Cont c1 && utf8Cont c2 && utf8Valid r
        | _ => false
      else if b = 0xED then
        match rest with
        | c1 :: c2 :: r => (0x80 ≤ c1 && c1 ≤ 0x9F) && utf8Cont c2 && utf8Valid r
        | _ => false
      else if b = 0xF0 then
        match rest with
        | c1 :: c2 :: c3 :: r => (0x90 ≤ c1 && c1 ≤ 0xBF) && utf8Cont c2 && utf8Cont c3 && utf8Valid r
        | _ => false
      else if 0xF1 ≤ b && b ≤ 0xF3 then
        match rest with
        | c1 :: c2 :: c3 :: r => utf8Cont c1 && utf8Cont c2 && utf8Cont c3 && utf8Valid r
        | _ => false
      else if b = 0xF4 then
        match rest with
        | c1 :: c2 :: c3 :: r => (0x80 ≤ c1 && c1 ≤ 0x8F) && utf8Cont c2 && utf8Cont c3 && utf8Valid r
        | _ => false
      else false

/- Byte constants for the string literals of the source. -/

/- "/nick " -/
def nickCmd : List Nat := [47, 110, 105, 99, 107, 32]

/- "nick changed to " -/
def nickChangedTo : List Nat :=
  [110, 105, 99, 107, 32, 99, 104, 97, 110, 103, 101, 100, 32, 116, 111, 32]

/- "\n> " -/
def nlPrompt : List Nat := [10, 62, 32]

/- "invalid nick" -/
def invalidNick : List Nat := [105, 110, 118, 97, 108, 105, 100, 32, 110, 105, 99, 107]

/- "> " -/
def gtSpace : List Nat := [62, 32]

/- "user:" -/
def userColon : List Nat := [117, 115, 101, 114, 58]

/- "Welcome to Simple Chat!\nUse /nick <nick> to set your nick.\n> " -/
def welcomeMsg : List Nat :=
  [87, 101, 108, 99, 111, 109, 101, 32, 116, 111, 32, 83, 105, 109, 112, 108, 101, 32,
   67, 104, 97, 116, 33, 10, 85, 115, 101, 32, 47, 110, 105, 99, 107, 32, 60, 110,
   105, 99, 107, 62, 32, 116, 111, 32, 115, 101, 116, 32, 121, 111, 117, 114, 32,
   110, 105, 99, 107, 46, 10, 62, 32]

/- Decimal digits of n in ASCII, for format!("user:{}", n). -/
def digsAux : Nat → Nat → List Nat
  | 0, _ => []
  | fuel+1, n => if n < 10 then [48 + n] else digsAux fuel (n / 10) ++ [48 + n % 10]

def natBytes (n : Nat) : List Nat := digsAux (n + 1) n

/- .iter().enumerate().find(|(_, x)| **x == b'\n').map(|(i, _)| i) -/
def findNL : List Nat → Option Nat
  | [] => none
  | b :: r => if b = 10 then some 0 else (findNL r).map (· + 1)

/- The per-line body of the scan loop in main: strip "/nick ", either
   rename (clear then push_str) and acknowledge to the sender, or render
   "<nick>> <msg>\n> " and push_from to everyone else. -/
def dispatchLine (chat : Chat) (tok : Nat) (msg : List Nat) : Except Unit Chat :=
  match chat.getClient tok with
  | none => .error ()
  | some client =>
      match stripLead nickCmd msg with
      | some nickArg =>
          -- client.nick.clear() happens before UTF-8 validation
          let client := { client with nick := [] }
          if utf8Valid nickArg then
            let client := { client with nick := nickArg }
            let res := nickChangedTo ++ nickArg ++ nlPrompt
            match client.write res with
            | .error e => .error e
            | .ok client' => .ok (chat.setClient tok client')
          else
            match client.write invalidNick with
            | .error e => .error e
            | .ok client' => .ok (chat.setClient tok client')
      | none =>
          let res := client.nick ++ gtSpace ++ msg ++ nlPrompt
          chat.pushFrom tok res

/- The line-extraction loop of main: starting at offset `start`, find a
   newline inside read_buf[start .. read_buf_start], dispatch the line,
   advance start past the terminator, repeat.  Consumed bytes are NOT
   removed from the buffer, and read_buf_start is not changed here.
   Fuel only forces termination; callers pass readBuf.length + 1, which
   exceeds the number of possible iterations. -/
def scanLoop : Nat → Chat → Nat → Nat → Except Unit Chat
  | 0, chat, _, _ => .ok chat
  | fuel+1, chat, tok, start =>
      match chat.getClient tok with
      | none => .error ()
      | some client =>
          match findNL (client.readBuf.drop start) with
          | none => .ok chat
          | some len =>
              let msg := (client.readBuf.drop start).take len
              match dispatchLine chat tok msg with
              | .error e => .error e
              | .ok chat' => scanLoop fuel chat' tok (start + len + 1)

/- The inner read loop of main: read into read_buf[read_buf_start..]
   until Ok(0) (finished = true), WouldBlock, or a fatal error.  A read
   on a zero-length remaining region returns Ok(0) without touching the
   stream.  A successful read returns at most the requested amount,
   hence `take space`. -/
def readLoop : List ReadRes → Client → Except Unit (Client × Bool)
  | evs, c =>
      if BUFLEN - c.readBuf.length = 0 then .ok (c, true)
      else
        match evs with
        | [] => .ok (c, false)
        | .closed :: _ => .ok (c, true)
        | .wouldBlock :: _ => .ok (c, false)
        | .fatal :: _ => .error ()
        | .bytes bs :: rest =>
            if bs.take (BUFLEN - c.readBuf.length) = [] then .ok (c, true)
            else readLoop rest { c with readBuf := c.readBuf ++ bs.take (BUFLEN - c.readBuf.length) }

/- The `if event.is_readable()` block of main for a client token:
   read loop, then line scan from offset 0, then if finished reset
   read_buf_start to 0 (the client is NOT removed from the map). -/
def handleReadable (chat : Chat) (tok : Nat) (evs : List ReadRes) : Except Unit Chat :=
  match chat.getClient tok with
  | none => .error ()
  | some client =>
      match readLoop evs client with
      | .error e => .error e
      | .ok (client, finished) =>
          let chat := chat.setClient tok client
          match scanLoop (client.readBuf.length + 1) chat tok 0 with
          | .error e => .error e
          | .ok chat =>
              if finished then
                match chat.getClient tok with
                | none => .error ()
                | some c2 => .ok (chat.setClient tok { c2 with readBuf := [] })
              else .ok chat

/- The `if event.is_writable()` block of main. -/
def handleWritable (chat : Chat) (tok : Nat) : Except Unit Chat :=
  match chat.getClient tok with
  | none => .error ()
  | some c =>
      match ({ c with writable := true } : Client).flushOutbox with
      | .error e => .error e
      | .ok c' => .ok (chat.setClient tok c')

/- One accepted connection in the accept loop of main: token
   max_client + 1, fresh client with nick "user:<token>", welcome
   banner written (writable is false, so it is only enqueued), then
   inserted and max_client updated.  `sw` is the new stream's write
   oracle. -/
def acceptOne (chat : Chat) (sw : List WriteRes) : Except Unit Chat :=
  let next := chat.maxClient + 1
  let client : Client :=
    { nick := userColon ++ natBytes next
      readBuf := []
      outbox := []
      writable := false
      sockW := sw }
  match client.write welcomeMsg with
  | .error e => .error e
  | .ok client' =>
      .ok { clients := insertSorted next client' chat.clients, maxClient := next }

/- The accept loop: one acceptOne per pending connection. -/
def acceptLoop : Chat → List (List WriteRes) → Except Unit Chat
  | chat, [] => .ok chat
  | chat, sw :: rest =>
      match acceptOne chat sw with
      | .error e => .error e
      | .ok chat' => acceptLoop chat' rest

/- Transport honesty for a write oracle against a queue: a successful
   write returns between 1 and `remaining` bytes when the requested
   slice is non-empty, and exactly Ok(0) when it is empty (this is what
   a real TcpStream write does); WouldBlock and fatal errors only occur
   on non-empty requests.  Constrains results only up to the first
   Ok(0)/WouldBlock/error, where the loop stops. -/
def honestW : List WriteRes → List OutboxItem → Bool
  | _, [] => true
  | [], _ :: _ => true
  | .ok 0 :: _, it :: _ => decide (it.data.length ≤ it.cursor)
  | .ok (n+1) :: ws, it :: q =>
      decide (n + 1 ≤ it.data.length - it.cursor) &&
        honestW ws ({ data := it.data, cursor := it.cursor + (n+1) } :: q)
  | .wouldBlock :: _, it :: _ => decide (it.cursor < it.data.length)
  | .fatal :: _, it :: _ => decide (it.cursor < it.data.length)

/- Total number of bytes a write oracle reports as accepted. -/
def sumOk : List WriteRes → Nat
  | [] => 0
  | .ok n :: ws => n + sumOk ws
  | _ :: ws => sumOk ws

/-  Helper lemmas. -/

theorem flushLoop_datas {ws : List WriteRes} {q q' : List OutboxItem} {ws' : List WriteRes}
    (h : flushLoop ws q = .ok (q', ws')) :
    q'.map OutboxItem.data <:+ q.map OutboxItem.data := by
  induction ws generalizing q q' ws' with
  | nil =>
    cases q with
    | nil => simp_all [flushLoop]
    | cons it rest => simp_all [flushLoop]
  | cons w ws ih =>
    cases q with
    | nil => simp_all [flushLoop]
    | cons it rest =>
      cases w with
      | ok n =>
        cases n with
        | zero =>
          simp only [flushLoop, Except.ok.injEq, Prod.mk.injEq] at h
          rw [← h.1]
          exact (List.suffix_cons _ _).map OutboxItem.data
        | succ n =>
          simp only [flushLoop] at h
          simpa using ih h
      | wouldBlock =>
        simp only [flushLoop, Except.ok.injEq, Prod.mk.injEq] at h
        rw [← h.1]
      | fatal => simp [flushLoop] at h

theorem flushOutbox_frame {c c' : Client} (h : c.flushOutbox = .ok c') :
    c'.nick = c.nick ∧ c'.readBuf = c.readBuf ∧ c'.writable = c.writable ∧
      c'.outbox.map OutboxItem.data <:+ c.outbox.map OutboxItem.data := by
  unfold Client.flushOutbox at h
  cases heq : flushLoop c.sockW c.outbox with
  | error e => rw [heq] at h; exact absurd h (by simp)
  | ok p =>
    rw [heq] at h
    cases h
    exact ⟨rfl, rfl, rfl, flushLoop_datas heq⟩

theorem write_frame {c : Client} {d : List Nat} {c' : Client} (h : c.write d = .ok c') :
    c'.nick = c.nick ∧ c'.readBuf = c.readBuf ∧ c'.writable = c.writable ∧
      c'.outbox.map OutboxItem.data <:+ c.outbox.map OutboxItem.data ++ [d] := by
  unfold Client.write at h
  by_cases hw : c.writable = true
  · rw [if_pos hw] at h
    have H := flushOutbox_frame h
    refine ⟨H.1, H.2.1, H.2.2.1, ?_⟩
    have := H.2.2.2
    simpa only [List.map_append, List.map_cons, List.map_nil] using this
  · rw [if_neg hw] at h
    cases h
    refine ⟨rfl, rfl, rfl, ?_⟩
    simp

theorem lookupC_setC (j k : Nat) (c : Client) (l : List (Nat × Client)) :
    lookupC j (setC k c l) =
      if j = k then (lookupC k l).map (fun _ => c) else lookupC j l := by
  induction l with
  | nil => simp [lookupC, setC]
  | cons kc rest ih =>
    obtain ⟨a, b⟩ := kc
    by_cases hak : a = k <;> by_cases hjk : j = k <;> by_cases haj : a = j <;>
      simp_all [lookupC, setC]

theorem lookupC_setC_ne {j k : Nat} (hjk : j ≠ k) (c : Client) (l : List (Nat × Client)) :
    lookupC j (setC k c l) = lookupC j l := by
  rw [lookupC_setC, if_neg hjk]

theorem lookupC_setC_self {k : Nat} {c₀ : Client} (c : Client) {l : List (Nat × Client)}
    (h : lookupC k l = some c₀) : lookupC k (setC k c l) = some c := by
  rw [lookupC_setC, if_pos rfl, h, Option.map_some']

theorem lookupC_setC_cases {j k : Nat} {c c' : Client} {l : List (Nat × Client)}
    (h : lookupC j (setC k c l) = some c') :
    (j = k ∧ c' = c) ∨ lookupC j l = some c' := by
  rw [lookupC_setC] at h
  by_cases hjk : j = k
  · rw [if_pos hjk] at h
    cases hl : lookupC k l with
    | none => rw [hl] at h; simp at h
    | some c₀ => rw [hl] at h; simp at h; exact Or.inl ⟨hjk, h.symm⟩
  · rw [if_neg hjk] at h
    exact Or.inr h

theorem lookupC_setC_isSome (j k : Nat) (c : Client) (l : List (Nat × Client)) :
    (lookupC j (setC k c l)).isSome = (lookupC j l).isSome := by
  rw [lookupC_setC]
  by_cases hjk : j = k
  · rw [if_pos hjk, hjk]
    cases lookupC k l <;> simp
  · rw [if_neg hjk]

theorem writeAll_spec {src : Nat} {d : List Nat} {l l' : List (Nat × Client)}
    (h : writeAll src d l = .ok l') (k : Nat) :
    (k = src → lookupC k l' = lookupC k l) ∧
    (k ≠ src → ∀ c, lookupC k l = some c → ∃ c', c.write d = .ok c' ∧ lookupC k l' = some c') ∧
    ((lookupC k l').isSome = (lookupC k l).isSome) := by
  induction l generalizing l' with
  | nil =>
    simp only [writeAll, Except.ok.injEq] at h
    subst h
    exact ⟨fun _ => rfl, fun _ c hc => by simp [lookupC] at hc, rfl⟩
  | cons kc rest ih =>
    obtain ⟨a, b⟩ := kc
    by_cases has : a = src
    · rw [show writeAll src d ((a, b) :: rest) =
          match writeAll src d rest with
          | .error e => .error e
          | .ok rest' => .ok ((a, b) :: rest') by simp [writeAll, has]] at h
      cases hr : writeAll src d rest with
      | error e => rw [hr] at h; exact absurd h (by simp)
      | ok rest' =>
        rw [hr] at h
        cases h
        obtain ⟨ih1, ih2, ih3⟩ := ih hr
        by_cases hak : a = k
        · subst hak
          exact ⟨fun _ => by simp [lookupC], fun hk => absurd has hk, by simp [lookupC]⟩
        · exact ⟨fun hks => by simp only [lookupC, hak, if_neg hak]; exact ih1 hks,
            fun hk c hc => by
              simp only [lookupC, if_neg hak] at hc ⊢
              exact ih2 hk c hc,
            by simp only [lookupC, if_neg hak]; exact ih3⟩
    · rw [show writeAll src d ((a, b) :: rest) =
          match b.write d with
          | .error e => .error e
          | .ok c' =>
              match writeAll src d rest with
              | .error e => .error e
              | .ok rest' => .ok ((a, c') :: rest') by simp [writeAll, has]] at h
      cases hw : b.write d with
      | error e => rw [hw] at h; exact absurd h (by simp)
      | ok b' =>
        rw [hw] at h
        cases hr : writeAll src d rest with
        | error e => rw [hr] at h; exact absurd h (by simp)
        | ok rest' =>
          rw [hr] at h
          cases h
          obtain ⟨ih1, ih2, ih3⟩ := ih hr
          by_cases hak : a = k
          · subst hak
            refine ⟨fun hks => absurd hks.symm (fun hh => has hh.symm), ?_, by simp [lookupC]⟩
            intro _ c hc
            simp only [lookupC, if_pos rfl] at hc ⊢
            cases hc
            exact ⟨b', hw, rfl⟩
          · exact ⟨fun hks => by simp only [lookupC, if_neg hak]; exact ih1 hks,
              fun hk c hc => by
                simp only [lookupC, if_neg hak] at hc ⊢
                exact ih2 hk c hc,
              by simp only [lookupC, if_neg hak]; exact ih3⟩

theorem pushFrom_frame {chat : Chat} {src : Nat} {d : List Nat} {chat' : Chat}
    (h : chat.pushFrom src d = .ok chat') (k : Nat) :
    (k = src → chat'.getClient k = chat.getClient k) ∧
    (k ≠ src → ∀ c, chat.getClient k = some c →
      ∃ c', c.write d = .ok c' ∧ chat'.getClient k = some c') ∧
    ((chat'.getClient k).isSome = (chat.getClient k).isSome) := by
  unfold Chat.pushFrom at h
  cases hw : writeAll src d chat.clients with
  | error e => rw [hw] at h; exact absurd h (by simp)
  | ok cs =>
    rw [hw] at h
    cases h
    exact writeAll_spec hw k

theorem getClient_setClient_cases {chat : Chat} {tok k : Nat} {c c' : Client}
    (h : (chat.setClient tok c).getClient k = some c') :
    (k = tok ∧ c' = c) ∨ chat.getClient k = some c' :=
  lookupC_setC_cases h

theorem getClient_setClient_isSome (chat : Chat) (tok k : Nat) (c : Client) :
    ((chat.setClient tok c).getClient k).isSome = (chat.getClient k).isSome :=
  lookupC_setC_isSome k tok c chat.clients

theorem getClient_setClient_ne {k tok : Nat} (h : k ≠ tok) (chat : Chat) (c : Client) :
    (chat.setClient tok c).getClient k = chat.getClient k :=
  lookupC_setC_ne h c chat.clients

theorem getClient_setClient_self {chat : Chat} {tok : Nat} {c₀ : Client} (c : Client)
    (h : chat.getClient tok = some c₀) :
    (chat.setClient tok c).getClient tok = some c :=
  lookupC_setC_self c h

theorem dispatchLine_frame {chat : Chat} {tok : Nat} {msg : List Nat} {chat' : Chat}
    (h : dispatchLine chat tok msg = .ok chat') (k : Nat) :
    ((chat'.getClient k).isSome = (chat.getClient k).isSome) ∧
    (∀ c', chat'.getClient k = some c' →
      ∃ c, chat.getClient k = some c ∧ c'.readBuf = c.readBuf ∧ c'.writable = c.writable) := by
  cases hg : chat.getClient tok with
  | none => simp only [dispatchLine, hg] at h; exact absurd h (by simp)
  | some client =>
    simp only [dispatchLine, hg] at h
    cases hs : stripLead nickCmd msg with
    | some nickArg =>
      simp only [hs] at h
      by_cases hv : utf8Valid nickArg = true
      · rw [if_pos hv] at h
        cases hwr : ({ client with nick := nickArg } : Client).write
            (nickChangedTo ++ nickArg ++ nlPrompt) with
        | error e => simp only [hwr] at h; exact absurd h (by simp)
        | ok client' =>
          simp only [hwr, Except.ok.injEq] at h
          subst h
          obtain ⟨-, hrb, hwb, -⟩ := write_frame hwr
          refine ⟨getClient_setClient_isSome chat tok k client', fun c' h' => ?_⟩
          rcases getClient_setClient_cases h' with ⟨hk, hc⟩ | h'
          · subst hk; subst hc
            exact ⟨client, hg, hrb, hwb⟩
          · exact ⟨c', h', rfl, rfl⟩
      · rw [if_neg hv] at h
        cases hwr : ({ client with nick := [] } : Client).write invalidNick with
        | error e => simp only [hwr] at h; exact absurd h (by simp)
        | ok client' =>
          simp only [hwr, Except.ok.injEq] at h
          subst h
          obtain ⟨-, hrb, hwb, -⟩ := write_frame hwr
          refine ⟨getClient_setClient_isSome chat tok k client', fun c' h' => ?_⟩
          rcases getClient_setClient_cases h' with ⟨hk, hc⟩ | h'
          · subst hk; subst hc
            exact ⟨client, hg, hrb, hwb⟩
          · exact ⟨c', h', rfl, rfl⟩
    | none =>
      simp only [hs] at h
      obtain ⟨hf1, hf2, hf3⟩ := pushFrom_frame h k
      refine ⟨hf3, fun c' h' => ?_⟩
      by_cases hk : k = tok
      · rw [hf1 hk] at h'
        exact ⟨c', h', rfl, rfl⟩
      · have hsome : (chat.getClient k).isSome := by rw [← hf3, h']; rfl
        cases hc : chat.getClient k with
        | none => rw [hc] at hsome; exact absurd hsome (by simp)
        | some c =>
          obtain ⟨c'', hw, hl⟩ := hf2 hk c hc
          rw [hl, Option.some.injEq] at h'
          subst h'
          obtain ⟨-, hrb, hwb, -⟩ := write_frame hw
          exact ⟨c, rfl, hrb, hwb⟩

theorem scanLoop_frame {fuel : Nat} {chat : Chat} {tok start : Nat} {chat' : Chat}
    (h : scanLoop fuel chat tok start = .ok chat') (k : Nat) :
    ((chat'.getClient k).isSome = (chat.getClient k).isSome) ∧
    (∀ c', chat'.getClient k = some c' →
      ∃ c, chat.getClient k = some c ∧ c'.readBuf = c.readBuf ∧ c'.writable = c.writable) := by
  induction fuel generalizing chat start with
  | zero =>
    cases h
    exact ⟨rfl, fun c' h' => ⟨c', h', rfl, rfl⟩⟩
  | succ fuel ih =>
    cases hg : chat.getClient tok with
    | none => simp only [scanLoop, hg] at h; exact absurd h (by simp)
    | some client =>
      simp only [scanLoop, hg] at h
      cases hf : findNL (client.readBuf.drop start) with
      | none =>
        simp only [hf, Except.ok.injEq] at h
        subst h
        exact ⟨rfl, fun c' h' => ⟨c', h', rfl, rfl⟩⟩
      | some len =>
        simp only [hf] at h
        cases hd : dispatchLine chat tok ((client.readBuf.drop start).take len) with
        | error e => simp only [hd] at h; exact absurd h (by simp)
        | ok chat₁ =>
          simp only [hd] at h
          obtain ⟨hi1, hi2⟩ := ih h
          obtain ⟨hd1, hd2⟩ := dispatchLine_frame hd k
          refine ⟨hi1.trans hd1, fun c' h' => ?_⟩
          obtain ⟨c₁, hc₁, hrb₁, hwb₁⟩ := hi2 c' h'
          obtain ⟨c, hc, hrb, hwb⟩ := hd2 c₁ hc₁
          exact ⟨c, hc, hrb₁.trans hrb, hwb₁.trans hwb⟩

theorem readLoop_spec {evs : List ReadRes} {c c₂ : Client} {f : Bool}
    (h : readLoop evs c = .ok (c₂, f)) :
    c₂.nick = c.nick ∧ c₂.outbox = c.outbox ∧ c₂.writable = c.writable ∧ c₂.sockW = c.sockW ∧
      (c.readBuf.length ≤ BUFLEN → c₂.readBuf.length ≤ BUFLEN) ∧
      ∃ ext, c₂.readBuf = c.readBuf ++ ext := by
  induction evs generalizing c with
  | nil =>
    unfold readLoop at h
    by_cases hc : BUFLEN - c.readBuf.length = 0
    · rw [if_pos hc] at h
      cases h
      exact ⟨rfl, rfl, rfl, rfl, id, [], by simp⟩
    · rw [if_neg hc] at h
      cases h
      exact ⟨rfl, rfl, rfl, rfl, id, [], by simp⟩
  | cons e rest ih =>
    unfold readLoop at h
    by_cases hc : BUFLEN - c.readBuf.length = 0
    · rw [if_pos hc] at h
      cases h
      exact ⟨rfl, rfl, rfl, rfl, id, [], by simp⟩
    · rw [if_neg hc] at h
      cases e with
      | closed => cases h; exact ⟨rfl, rfl, rfl, rfl, id, [], by simp⟩
      | wouldBlock => cases h; exact ⟨rfl, rfl, rfl, rfl, id, [], by simp⟩
      | fatal => exact absurd h (by simp)
      | bytes bs =>
        by_cases hb : bs.take (BUFLEN - c.readBuf.length) = []
        · simp only [hb, if_true] at h
          cases h
          exact ⟨rfl, rfl, rfl, rfl, id, [], by simp⟩
        · simp only [hb, if_false] at h
          obtain ⟨h1, h2, h3, h4, h5, ext, h6⟩ := ih h
          refine ⟨h1, h2, h3, h4, fun hle => ?_, bs.take (BUFLEN - c.readBuf.length) ++ ext,
            by rw [h6]; simp⟩
          refine h5 ?_
          have htk : (bs.take (BUFLEN - c.readBuf.length)).length ≤ BUFLEN - c.readBuf.length := by
            rw [List.length_take]
            exact Nat.min_le_left _ _
          simp only [List.length_append]
          omega

theorem handleReadable_clients {chat : Chat} {tok : Nat} {evs : List ReadRes} {chat' : Chat}
    (h : handleReadable chat tok evs = .ok chat') (k : Nat) :
    ((chat'.getClient k).isSome = (chat.getClient k).isSome) ∧
    (∀ c', chat'.getClient k = some c' →
      ∃ c, chat.getClient k = some c ∧ c'.writable = c.writable ∧
        (c.readBuf.length ≤ BUFLEN → c'.readBuf.length ≤ BUFLEN)) := by
  cases hg : chat.getClient tok with
  | none => simp only [handleReadable, hg] at h; exact absurd h (by simp)
  | some client =>
    simp only [handleReadable, hg] at h
    cases hr : readLoop evs client with
    | error e => simp only [hr] at h; exact absurd h (by simp)
    | ok p =>
      obtain ⟨client₁, fin⟩ := p
      simp only [hr] at h
      cases hs : scanLoop (client₁.readBuf.length + 1) (chat.setClient tok client₁) tok 0 with
      | error e => simp only [hs] at h; exact absurd h (by simp)
      | ok chat₂ =>
        simp only [hs] at h
        obtain ⟨-, -, hwb₁, -, hbd₁, -⟩ := readLoop_spec hr
        obtain ⟨hs1, hs2⟩ := scanLoop_frame hs k
        have hmid : ∀ c', (chat.setClient tok client₁).getClient k = some c' →
            ∃ c, chat.getClient k = some c ∧ c'.writable = c.writable ∧
              (c.readBuf.length ≤ BUFLEN → c'.readBuf.length ≤ BUFLEN) := by
          intro c' h'
          rcases getClient_setClient_cases h' with ⟨hk, hc⟩ | h'
          · subst hk; subst hc
            exact ⟨client, hg, hwb₁, hbd₁⟩
          · exact ⟨c', h', rfl, id⟩
        have hmidSome : ((chat.setClient tok client₁).getClient k).isSome =
            (chat.getClient k).isSome := getClient_setClient_isSome chat tok k client₁
        have h2 : ∀ c', chat₂.getClient k = some c' →
            ∃ c, chat.getClient k = some c ∧ c'.writable = c.writable ∧
              (c.readBuf.length ≤ BUFLEN → c'.readBuf.length ≤ BUFLEN) := by
          intro c' h'
          obtain ⟨cm, hcm, hrb, hwb⟩ := hs2 c' h'
          obtain ⟨c, hc, hwb', hbd'⟩ := hmid cm hcm
          exact ⟨c, hc, hwb.trans hwb', fun hle => hrb ▸ hbd' hle⟩
        cases fin with
        | false =>
          rw [if_neg (by decide : ¬false = true)] at h
          cases h
          exact ⟨hs1.trans hmidSome, h2⟩
        | true =>
          rw [if_pos rfl] at h
          cases hg2 : chat₂.getClient tok with
          | none => rw [hg2] at h; exact absurd h (by simp)
          | some c2 =>
            rw [hg2] at h
            cases h
            refine ⟨(getClient_setClient_isSome chat₂ tok k _).trans (hs1.trans hmidSome),
              fun c' h' => ?_⟩
            rcases getClient_setClient_cases h' with ⟨hk, hc⟩ | h'
            · subst hk; subst hc
              obtain ⟨c, hc, hwb, -⟩ := h2 c2 hg2
              exact ⟨c, hc, hwb, fun _ => by simp [BUFLEN]⟩
            · exact h2 c' h'

theorem lookupC_insertSorted_self (k : Nat) (c : Client) (l : List (Nat × Client)) :
    lookupC k (insertSorted k c l) = some c := by
  induction l with
  | nil => simp [insertSorted, lookupC]
  | cons kc rest ih =>
    obtain ⟨a, b⟩ := kc
    by_cases h1 : k < a
    · simp [insertSorted, h1, lookupC]
    · by_cases h2 : k = a
      · simp [insertSorted, h1, h2, lookupC]
      · have hak : ¬(a = k) := fun hh => h2 hh.symm
        simp [insertSorted, h1, h2, lookupC, hak, ih]

/-
  Claim theorems.
-/

/-- C6, counterexample: the claim says that after an item's offset
reaches its payload length the item is popped and `flush_outbox`
continues with the next queued item until the queue is empty or a
would-block stops it.  With an honest transport that accepts
everything (no would-block anywhere), the code pops the first item on
the zero-length write result and then `break`s, leaving the second
item entirely unsent in the queue. -/
theorem flush_front_fifo_cex :
    flushLoop [WriteRes.ok 2, WriteRes.ok 0, WriteRes.ok 2, WriteRes.ok 0]
        [{ data := [97, 98], cursor := 0 }, { data := [99, 100], cursor := 0 }] =
      .ok ([{ data := [99, 100], cursor := 0 }], [WriteRes.ok 2, WriteRes.ok 0]) ∧
    honestW [WriteRes.ok 2, WriteRes.ok 0, WriteRes.ok 2, WriteRes.ok 0]
        [{ data := [97, 98], cursor := 0 }, { data := [99, 100], cursor := 0 }] = true ∧
    WriteRes.wouldBlock ∉ [WriteRes.ok 2, WriteRes.ok 0, WriteRes.ok 2, WriteRes.ok 0] ∧
    [({ data := [99, 100], cursor := 0 } : OutboxItem)] ≠ ([] : List OutboxItem) := by
  refine ⟨rfl, rfl, by decide, by decide⟩

/-- C6 (amended): `flush_outbox` repeatedly writes the unsent tail of
the front item, each successful write advancing its offset; the front
item is popped on a zero-length write result — which under an honest
transport happens exactly when its offset has reached its payload
length — and the flush attempt then stops immediately, leaving every
later queued item untouched (at most one pop per call, FIFO order
preserved); a would-block likewise stops the attempt. -/
theorem flush_front_fifo (ws : List WriteRes) (it : OutboxItem) (rest : List OutboxItem)
    (hh : honestW ws (it :: rest) = true) (hc : it.cursor ≤ it.data.length) :
    flushLoop ws (it :: rest) = .error () ∨
    (∃ δ ws', it.cursor + δ ≤ it.data.length ∧
      flushLoop ws (it :: rest) = .ok ({ data := it.data, cursor := it.cursor + δ } :: rest, ws')) ∨
    (∃ ws', it.data.length ≤ it.cursor + sumOk ws ∧
      flushLoop ws (it :: rest) = .ok (rest, ws')) := by
  induction ws generalizing it with
  | nil =>
    right; left
    exact ⟨0, [], by simpa using hc, rfl⟩
  | cons w ws ih =>
    cases w with
    | ok n =>
      cases n with
      | zero =>
        have hle : it.data.length ≤ it.cursor := by simpa [honestW] using hh
        right; right
        refine ⟨ws, ?_, rfl⟩
        have : sumOk (WriteRes.ok 0 :: ws) = 0 + sumOk ws := rfl
        omega
      | succ n =>
        have hh' : (n + 1 ≤ it.data.length - it.cursor) ∧
            honestW ws ({ data := it.data, cursor := it.cursor + (n+1) } :: rest) = true := by
          simpa [honestW, Bool.and_eq_true, decide_eq_true_eq] using hh
        have hc' : it.cursor + (n+1) ≤ it.data.length := by
          have := hh'.1
          omega
        rcases ih { data := it.data, cursor := it.cursor + (n+1) } hh'.2 hc' with
          herr | ⟨δ, ws', hle, heq⟩ | ⟨ws', hlen, heq⟩
        · left
          exact herr
        · right; left
          refine ⟨(n+1) + δ, ws', by simp only at hle; omega, ?_⟩
          have hstep : flushLoop (WriteRes.ok (n+1) :: ws) (it :: rest) =
              flushLoop ws ({ data := it.data, cursor := it.cursor + (n+1) } :: rest) := rfl
          rw [hstep, heq]
          have : it.cursor + (n+1) + δ = it.cursor + ((n+1) + δ) := by omega
          rw [this]
        · right; right
          refine ⟨ws', ?_, heq⟩
          have hsum : sumOk (WriteRes.ok (n+1) :: ws) = (n+1) + sumOk ws := rfl
          simp only at hlen
          omega
    | wouldBlock =>
      right; left
      exact ⟨0, ws, by simpa using hc, rfl⟩
    | fatal =>
      left; rfl

/-- C6, witness for the amended theorem at a concrete input: a single
two-byte item, written in two one-byte chunks and then popped by the
zero-length write of the empty remaining slice. -/
theorem flush_front_fifo_wit :
    honestW [WriteRes.ok 1, WriteRes.ok 1, WriteRes.ok 0]
        [{ data := [97, 98], cursor := 0 }] = true ∧
    (flushLoop [WriteRes.ok 1, WriteRes.ok 1, WriteRes.ok 0]
        [({ data := [97, 98], cursor := 0 } : OutboxItem)] = .error () ∨
    (∃ δ ws', 0 + δ ≤ [97, 98].length ∧
      flushLoop [WriteRes.ok 1, WriteRes.ok 1, WriteRes.ok 0]
          [({ data := [97, 98], cursor := 0 } : OutboxItem)] =
        .ok ({ data := [97, 98], cursor := 0 + δ } :: [], ws')) ∨
    (∃ ws', ([97, 98] : List Nat).length ≤ 0 + sumOk [WriteRes.ok 1, WriteRes.ok 1, WriteRes.ok 0] ∧
      flushLoop [WriteRes.ok 1, WriteRes.ok 1, WriteRes.ok 0]
          [({ data := [97, 98], cursor := 0 } : OutboxItem)] = .ok ([], ws'))) :=
  ⟨rfl, flush_front_fifo [WriteRes.ok 1, WriteRes.ok 1, WriteRes.ok 0]
    { data := [97, 98], cursor := 0 } [] rfl (by decide)⟩

/-- C7, counterexample: the claim says the writable flag is false after
a flush attempt hits would-block.  On a writable client whose stream
answers WouldBlock, `flush_outbox` merely breaks; nothing in the code
ever sets the flag to false, so it is still true afterwards. -/
theorem writable_flag_cex :
    Client.flushOutbox
        { nick := [], readBuf := [], outbox := [{ data := [97, 98], cursor := 0 }],
          writable := true, sockW := [WriteRes.wouldBlock] } =
      .ok { nick := [], readBuf := [], outbox := [{ data := [97, 98], cursor := 0 }],
            writable := true, sockW := [] } ∧
    ¬ (({ nick := [], readBuf := [], outbox := [{ data := [97, 98], cursor := 0 }],
          writable := true, sockW := [] } : Client).writable = false) := by
  exact ⟨rfl, by decide⟩

/-- C7 (amended): flush attempts never change the writable flag — a
would-block response stops the attempt but leaves the flag as it was
(the code never resets it to false); the flag starts false on accept
and the write-readiness handler is the only place that sets it true;
read-readiness handling (including the enqueues and flushes it
triggers) preserves every client's flag. -/
theorem writable_flag_discipline :
    (∀ c c' : Client, c.flushOutbox = .ok c' → c'.writable = c.writable) ∧
    (∀ (c : Client) (d : List Nat) (c' : Client), c.write d = .ok c' → c'.writable = c.writable) ∧
    (∀ (chat : Chat) (tok : Nat) (chat' : Chat) (c' : Client),
      handleWritable chat tok = .ok chat' → chat'.getClient tok = some c' →
      c'.writable = true) ∧
    (∀ (chat : Chat) (tok : Nat) (evs : List ReadRes) (chat' : Chat) (k : Nat) (c' : Client),
      handleReadable chat tok evs = .ok chat' → chat'.getClient k = some c' →
      ∃ c, chat.getClient k = some c ∧ c'.writable = c.writable) ∧
    (∀ (chat : Chat) (sw : List WriteRes) (chat' : Chat),
      acceptOne chat sw = .ok chat' →
      chat'.getClient (chat.maxClient + 1) =
        some { nick := userColon ++ natBytes (chat.maxClient + 1), readBuf := [],
               outbox := [{ data := welcomeMsg, cursor := 0 }], writable := false,
               sockW := sw }) := by
  refine ⟨fun c c' h => (flushOutbox_frame h).2.2.1,
    fun c d c' h => (write_frame h).2.2.1, ?_, ?_, ?_⟩
  · intro chat tok chat' c' h h'
    cases hg : chat.getClient tok with
    | none => simp only [handleWritable, hg] at h; exact absurd h (by simp)
    | some c =>
      simp only [handleWritable, hg] at h
      cases hf : ({ c with writable := true } : Client).flushOutbox with
      | error e => simp only [hf] at h; exact absurd h (by simp)
      | ok c'' =>
        simp only [hf, Except.ok.injEq] at h
        subst h
        rw [getClient_setClient_self c'' hg, Option.some.injEq] at h'
        subst h'
        exact (flushOutbox_frame hf).2.2.1
  · intro chat tok evs chat' k c' h h'
    obtain ⟨c, hc, hwb, -⟩ := (handleReadable_clients h k).2 c' h'
    exact ⟨c, hc, hwb⟩
  · intro chat sw chat' h
    simp only [acceptOne, Client.write] at h
    rw [if_neg (by decide : ¬false = true)] at h
    cases h
    exact congrArg Chat.getClient rfl ▸ lookupC_insertSorted_self (chat.maxClient + 1) _ _

/-- C7, witness for the amended theorem at concrete inputs: a
write-readiness event on a registered client makes it writable, and a
read-readiness event on it preserves the flag. -/
theorem writable_flag_discipline_wit :
    (Client.mk [] [] [] true [] : Client).writable = true ∧
    (Client.mk [] [] [] false [] : Client).writable = (Client.mk [] [] [] false []).writable := by
  constructor
  · exact writable_flag_discipline.2.2.1 (Chat.mk [(1, Client.mk [] [] [] false [])] 1) 1
      (Chat.mk [(1, Client.mk [] [] [] true [])] 1) (Client.mk [] [] [] true []) rfl rfl
  · obtain ⟨c, hc, hw⟩ := writable_flag_discipline.2.2.2.1
      (Chat.mk [(1, Client.mk [] [] [] false [])] 1) 1 []
      (Chat.mk [(1, Client.mk [] [] [] false [])] 1) 1 (Client.mk [] [] [] false []) rfl rfl
    have hcb : some (Client.mk [] [] [] false [] : Client) = some c := by
      rw [← hc]; rfl
    cases hcb
    exact hw

theorem stripLead_append (p r : List Nat) : stripLead p (p ++ r) = some r := by
  induction p with
  | nil => rfl
  | cons a ps ih => simp [stripLead, ih]

theorem write_not_writable {c : Client} {d : List Nat} {c' : Client}
    (hw : c.writable = false) (h : c.write d = .ok c') :
    c'.outbox = c.outbox ++ [{ data := d, cursor := 0 }] := by
  unfold Client.write at h
  rw [if_neg (by simp [hw])] at h
  cases h
  rfl

/-- C3: `push_from(src, data)` performs exactly one `write` of the one
shared payload value on every registered client whose handle differs
from src (when that client is not currently writable this is literally
the append of the single item {data, cursor 0} to its queue), enqueues
nothing on the source's own queue (its entry is left untouched), and
the payload bytes of every queued item afterwards come unchanged from
the old queue or are the broadcast payload itself — flushing never
mutates a payload. -/
theorem pushFrom_broadcast_spec (chat : Chat) (src : Nat) (d : List Nat) (chat' : Chat)
    (h : chat.pushFrom src d = .ok chat') (k : Nat) :
    (k = src → chat'.getClient k = chat.getClient k) ∧
    (k ≠ src → ∀ c, chat.getClient k = some c →
      ∃ c', c.write d = .ok c' ∧ chat'.getClient k = some c' ∧
        c'.nick = c.nick ∧ c'.readBuf = c.readBuf ∧
        (c.writable = false → c'.outbox = c.outbox ++ [{ data := d, cursor := 0 }]) ∧
        c'.outbox.map OutboxItem.data <:+ c.outbox.map OutboxItem.data ++ [d]) ∧
    ((chat'.getClient k).isSome = (chat.getClient k).isSome) := by
  obtain ⟨h1, h2, h3⟩ := pushFrom_frame h k
  refine ⟨h1, fun hk c hc => ?_, h3⟩
  obtain ⟨c', hw, hl⟩ := h2 hk c hc
  obtain ⟨hn, hr, -, hsuf⟩ := write_frame hw
  exact ⟨c', hw, hl, hn, hr, fun hnw => write_not_writable hnw hw, hsuf⟩

/-- C3, witness: a broadcast from client 1 in a two-client registry
leaves client 1's entry unchanged. -/
theorem pushFrom_broadcast_spec_wit :
    (Chat.mk [(1, Client.mk [] [] [] false []),
              (2, Client.mk [] [] [{ data := [120], cursor := 0 }] false [])] 2).getClient 1 =
      (Chat.mk [(1, Client.mk [] [] [] false []),
                (2, Client.mk [] [] [] false [])] 2).getClient 1 :=
  (pushFrom_broadcast_spec
    (Chat.mk [(1, Client.mk [] [] [] false []), (2, Client.mk [] [] [] false [])] 2) 1 [120]
    (Chat.mk [(1, Client.mk [] [] [] false []),
              (2, Client.mk [] [] [{ data := [120], cursor := 0 }] false [])] 2)
    rfl 1).1 rfl

/-- C4: a dispatched line "/nick " ++ rest with rest valid UTF-8
replaces the sender's display name by rest, enqueues exactly the
acknowledgement "nick changed to " ++ rest ++ "\n> " on the sender
(literally one appended item when the sender is not writable), and
leaves every other client's entry — in particular its pending-send
queue — unchanged. -/
theorem nick_valid_spec (chat : Chat) (tok : Nat) (rest : List Nat) (chat' : Chat)
    (client : Client)
    (hg : chat.getClient tok = some client)
    (hv : utf8Valid rest = true)
    (h : dispatchLine chat tok (nickCmd ++ rest) = .ok chat') :
    (∀ k, k ≠ tok → chat'.getClient k = chat.getClient k) ∧
    (∃ c', ({ client with nick := rest } : Client).write
        (nickChangedTo ++ rest ++ nlPrompt) = .ok c' ∧
      chat'.getClient tok = some c' ∧ c'.nick = rest ∧
      (client.writable = false →
        c'.outbox = client.outbox ++
          [{ data := nickChangedTo ++ rest ++ nlPrompt, cursor := 0 }])) := by
  simp only [dispatchLine, hg, stripLead_append] at h
  rw [if_pos hv] at h
  cases hwr : ({ client with nick := rest } : Client).write
      (nickChangedTo ++ rest ++ nlPrompt) with
  | error e => simp only [hwr] at h; exact absurd h (by simp)
  | ok c' =>
    simp only [hwr, Except.ok.injEq] at h
    subst h
    exact ⟨fun k hk => getClient_setClient_ne hk chat c', c', rfl,
      getClient_setClient_self c' hg, (write_frame hwr).1,
      fun hnw => @write_not_writable { client with nick := rest } _ _ hnw hwr⟩

/-- C4, witness: "/nick a" from client 1 of a two-client registry
leaves client 2's entry unchanged. -/
theorem nick_valid_spec_wit :
    (Chat.mk [(1, Client.mk [97] []
                  [{ data := nickChangedTo ++ [97] ++ nlPrompt, cursor := 0 }] false []),
              (2, Client.mk [107] [] [] false [])] 2).getClient 2 =
      (Chat.mk [(1, Client.mk [107] [] [] false []),
                (2, Client.mk [107] [] [] false [])] 2).getClient 2 :=
  (nick_valid_spec
    (Chat.mk [(1, Client.mk [107] [] [] false []), (2, Client.mk [107] [] [] false [])] 2)
    1 [97]
    (Chat.mk [(1, Client.mk [97] []
                  [{ data := nickChangedTo ++ [97] ++ nlPrompt, cursor := 0 }] false []),
              (2, Client.mk [107] [] [] false [])] 2)
    (Client.mk [107] [] [] false []) rfl rfl rfl).1 2 (by decide)

/-- C5: a dispatched line "/nick " ++ rest with rest not valid UTF-8
enqueues the "invalid nick" notice on the sender only, leaves the
sender's display name cleared (empty — the clear precedes validation),
keeps the sender registered, and changes no other client's entry (no
broadcast). -/
theorem nick_invalid_spec (chat : Chat) (tok : Nat) (rest : List Nat) (chat' : Chat)
    (client : Client)
    (hg : chat.getClient tok = some client)
    (hv : utf8Valid rest = false)
    (h : dispatchLine chat tok (nickCmd ++ rest) = .ok chat') :
    (∀ k, k ≠ tok → chat'.getClient k = chat.getClient k) ∧
    (∃ c', ({ client with nick := [] } : Client).write invalidNick = .ok c' ∧
      chat'.getClient tok = some c' ∧ c'.nick = [] ∧
      (client.writable = false →
        c'.outbox = client.outbox ++ [{ data := invalidNick, cursor := 0 }])) := by
  simp only [dispatchLine, hg, stripLead_append] at h
  rw [if_neg (by simp [hv])] at h
  cases hwr : ({ client with nick := [] } : Client).write invalidNick with
  | error e => simp only [hwr] at h; exact absurd h (by simp)
  | ok c' =>
    simp only [hwr, Except.ok.injEq] at h
    subst h
    exact ⟨fun k hk => getClient_setClient_ne hk chat c', c', rfl,
      getClient_setClient_self c' hg, (write_frame hwr).1,
      fun hnw => @write_not_writable { client with nick := [] } _ _ hnw hwr⟩

/-- C5, witness: "/nick \xFF" from client 1 of a two-client registry
leaves client 2's entry unchanged. -/
theorem nick_invalid_spec_wit :
    (Chat.mk [(1, Client.mk [] [] [{ data := invalidNick, cursor := 0 }] false []),
              (2, Client.mk [107] [] [] false [])] 2).getClient 2 =
      (Chat.mk [(1, Client.mk [107] [] [] false []),
                (2, Client.mk [107] [] [] false [])] 2).getClient 2 :=
  (nick_invalid_spec
    (Chat.mk [(1, Client.mk [107] [] [] false []), (2, Client.mk [107] [] [] false [])] 2)
    1 [255]
    (Chat.mk [(1, Client.mk [] [] [{ data := invalidNick, cursor := 0 }] false []),
              (2, Client.mk [107] [] [] false [])] 2)
    (Client.mk [107] [] [] false []) rfl rfl rfl).1 2 (by decide)

/-- C1, counterexample: the claim says a zero-length read destroys the
connection state — the client is removed from the registry and gets no
further broadcast enqueues.  Handling a close event on client 1 (with
an unterminated "hi" in its accumulator) leaves its handle in the
clients map with the accumulator merely reset, and a subsequent
broadcast from client 2 still enqueues onto client 1's queue. -/
theorem eof_destroys_client_cex :
    handleReadable (Chat.mk [(1, Client.mk [117] [104, 105] [] false []),
                             (2, Client.mk [118] [] [] false [])] 2) 1 [ReadRes.closed] =
      .ok (Chat.mk [(1, Client.mk [117] [] [] false []),
                    (2, Client.mk [118] [] [] false [])] 2) ∧
    (Chat.mk [(1, Client.mk [117] [] [] false []),
              (2, Client.mk [118] [] [] false [])] 2).getClient 1 ≠ none ∧
    Chat.pushFrom (Chat.mk [(1, Client.mk [117] [] [] false []),
                            (2, Client.mk [118] [] [] false [])] 2) 2 [120] =
      .ok (Chat.mk [(1, Client.mk [117] [] [{ data := [120], cursor := 0 }] false []),
                    (2, Client.mk [118] [] [] false [])] 2) :=
  ⟨rfl, by decide, rfl⟩

/-- C1 (amended): when the read loop reports end-of-stream, the
connection is NOT destroyed: after the event is handled the client's
handle is still in the registry, its accumulator is reset to empty,
and later broadcasts from other clients still enqueue onto it. -/
theorem eof_resets_not_removes (chat : Chat) (tok : Nat) (evs : List ReadRes) (chat' : Chat)
    (client c₂ : Client)
    (hg : chat.getClient tok = some client)
    (hr : readLoop evs client = .ok (c₂, true))
    (h : handleReadable chat tok evs = .ok chat') :
    ∃ c', chat'.getClient tok = some c' ∧ c'.readBuf = [] ∧
      ∀ (src : Nat) (d : List Nat) (chat'' : Chat), src ≠ tok →
        chat'.pushFrom src d = .ok chat'' →
        ∃ c'', c'.write d = .ok c'' ∧ chat''.getClient tok = some c'' := by
  simp only [handleReadable, hg, hr] at h
  cases hsc : scanLoop (c₂.readBuf.length + 1) (chat.setClient tok c₂) tok 0 with
  | error e => simp only [hsc] at h; exact absurd h (by simp)
  | ok chat₂ =>
    simp only [hsc] at h
    rw [if_pos trivial] at h
    cases hg2 : chat₂.getClient tok with
    | none =>
      exfalso
      have h1 := (scanLoop_frame hsc tok).1
      rw [hg2, getClient_setClient_isSome chat tok tok c₂, hg] at h1
      exact absurd h1 (by simp)
    | some c₃ =>
      rw [hg2] at h
      cases h
      refine ⟨{ c₃ with readBuf := [] }, getClient_setClient_self _ hg2, rfl, ?_⟩
      intro src d chat'' hsrc hpf
      exact (pushFrom_frame hpf tok).2.1 (fun hh => hsrc hh.symm) _
        (getClient_setClient_self _ hg2)

/-- C1, witness for the amended theorem: a single registered client
whose stream reports close. -/
theorem eof_resets_not_removes_wit :
    ∃ c', (Chat.mk [(1, Client.mk [] [] [] false [])] 1).getClient 1 = some c' ∧
      c'.readBuf = [] ∧
      ∀ (src : Nat) (d : List Nat) (chat'' : Chat), src ≠ 1 →
        (Chat.mk [(1, Client.mk [] [] [] false [])] 1).pushFrom src d = .ok chat'' →
        ∃ c'', c'.write d = .ok c'' ∧ chat''.getClient 1 = some c'' :=
  eof_resets_not_removes (Chat.mk [(1, Client.mk [] [104] [] false [])] 1) 1
    [ReadRes.closed] (Chat.mk [(1, Client.mk [] [] [] false [])] 1)
    (Client.mk [] [104] [] false []) (Client.mk [] [104] [] false []) rfl rfl rfl

/-- C2, the failing input evaluated on the code: client 1 sends "a\n"
in one read-readiness event and "b\n" in a later one.  Because the
scan loop restarts at offset 0 and consumed bytes are never removed
from the accumulator (read_buf_start is only reset on close), the
already-dispatched line "a" is dispatched again in the second event:
client 2's queue ends up with the broadcast of "a" twice and of "b"
once, instead of exactly once each. -/
theorem line_redispatched_across_events :
    ((handleReadable
        (Chat.mk [(1, Client.mk (userColon ++ natBytes 1) [] [] false []),
                  (2, Client.mk [98] [] [] false [])] 2)
        1 [ReadRes.bytes [97, 10], ReadRes.wouldBlock]).bind
      (fun ch => handleReadable ch 1 [ReadRes.bytes [98, 10], ReadRes.wouldBlock])).toOption.bind
        (fun ch => (ch.getClient 2).map (fun c => c.outbox.map OutboxItem.data)) =
      some [userColon ++ natBytes 1 ++ gtSpace ++ [97] ++ nlPrompt,
            userColon ++ natBytes 1 ++ gtSpace ++ [97] ++ nlPrompt,
            userColon ++ natBytes 1 ++ gtSpace ++ [98] ++ nlPrompt] := rfl

/-- C8: the receive accumulator's write cursor (the length of the
modelled buffer contents) never exceeds the fixed capacity BUFLEN =
4096: if every registered client satisfies the bound, then after
handling any read-readiness event every registered client still does
— each read fills at most the remaining space, the line scan never
grows the buffer, and the close-path reset empties it. -/
theorem read_cursor_capacity (chat : Chat) (tok : Nat) (evs : List ReadRes) (chat' : Chat)
    (hinv : ∀ k c, chat.getClient k = some c → c.readBuf.length ≤ BUFLEN)
    (h : handleReadable chat tok evs = .ok chat') :
    ∀ k c', chat'.getClient k = some c' → c'.readBuf.length ≤ BUFLEN := by
  intro k c' h'
  obtain ⟨c, hc, -, hbd⟩ := (handleReadable_clients h k).2 c' h'
  exact hbd (hinv k c hc)

/-- C8, witness: one client reading a single byte. -/
theorem read_cursor_capacity_wit :
    (Client.mk [] [97] [] false [] : Client).readBuf.length ≤ BUFLEN :=
  read_cursor_capacity (Chat.mk [(1, Client.mk [] [] [] false [])] 1) 1
    [ReadRes.bytes [97]]
    (Chat.mk [(1, Client.mk [] [97] [] false [])] 1)
    (by
      intro k c hc
      simp only [Chat.getClient, lookupC] at hc
      split at hc
      · cases hc; decide
      · cases hc)
    rfl 1 (Client.mk [] [97] [] false []) rfl

theorem toks_insertSorted (k j : Nat) (c : Client) (l : List (Nat × Client)) :
    j ∈ (insertSorted k c l).map Prod.fst ↔ j = k ∨ j ∈ l.map Prod.fst := by
  induction l with
  | nil => simp [insertSorted]
  | cons kc rest ih =>
    obtain ⟨a, b⟩ := kc
    by_cases h1 : k < a
    · simp [insertSorted, h1]
    · by_cases h2 : k = a
      · subst h2
        simp [insertSorted, h1]
      · simp [insertSorted, h1, h2, ih]
        tauto

/-- C9: each accepted connection gets the handle max_client + 1:
strictly greater than every handle currently in the registry (hence
than every handle assigned before, since handles only grow and entries
are never removed), never 0, fresh (not already a key), and the
bounding invariant "every key ≤ max_client" is preserved. -/
theorem accept_handle_monotone (chat : Chat) (sw : List WriteRes) (chat' : Chat)
    (hinv : ∀ k, k ∈ chat.clients.map Prod.fst → k ≤ chat.maxClient)
    (h : acceptOne chat sw = .ok chat') :
    chat'.maxClient = chat.maxClient + 1 ∧
    0 < chat'.maxClient ∧
    (∀ k, k ∈ chat.clients.map Prod.fst → k < chat'.maxClient) ∧
    (∀ j, j ∈ chat'.clients.map Prod.fst ↔
      j = chat.maxClient + 1 ∨ j ∈ chat.clients.map Prod.fst) ∧
    (∀ k, k ∈ chat'.clients.map Prod.fst → k ≤ chat'.maxClient) := by
  simp only [acceptOne, Client.write] at h
  rw [if_neg (by decide : ¬false = true)] at h
  cases h
  refine ⟨rfl, Nat.succ_pos _, fun k hk => Nat.lt_succ_of_le (hinv k hk),
    fun j => toks_insertSorted (chat.maxClient + 1) j _ chat.clients, fun k hk => ?_⟩
  rcases (toks_insertSorted (chat.maxClient + 1) k _ chat.clients).mp hk with hk | hk
  · exact hk.le
  · exact (hinv k hk).trans (Nat.le_succ _)

/-- C9, witness: the first accept on a fresh chat assigns handle 1. -/
theorem accept_handle_monotone_wit :
    (Chat.mk [(1, Client.mk (userColon ++ natBytes 1) []
                  [{ data := welcomeMsg, cursor := 0 }] false [])] 1).maxClient =
      Chat.new.maxClient + 1 :=
  (accept_handle_monotone Chat.new []
    (Chat.mk [(1, Client.mk (userColon ++ natBytes 1) []
                  [{ data := welcomeMsg, cursor := 0 }] false [])] 1)
    (fun k hk => absurd hk (by simp [Chat.new])) rfl).1

theorem setC_setC (k : Nat) (c x : Client) (l : List (Nat × Client)) :
    setC k x (setC k c l) = setC k x l := by
  induction l with
  | nil => rfl
  | cons kc rest ih =>
    by_cases hk : kc.1 = k
    · simp [setC, hk, ih]
    · simp [setC, hk, ih]

theorem findNL_replicate (n : Nat) : findNL (List.replicate n 97) = none := by
  induction n with
  | zero => rfl
  | succ n ih => simp [List.replicate, findNL, ih]

/-- C10: when the accumulator is completely full (write cursor =
capacity) and holds no line terminator, a read-readiness event — with
any stream state whatsoever — performs a read into the zero-length
remaining region, which returns zero bytes and is treated as peer
close: the handler succeeds, the accumulator is reset to empty
(silently discarding the over-long unterminated line), the client
stays in the registry, and no other client is touched. -/
theorem full_buffer_read_as_close (chat : Chat) (tok : Nat) (client : Client)
    (evs : List ReadRes)
    (hg : chat.getClient tok = some client)
    (hfull : client.readBuf.length = BUFLEN)
    (hnl : findNL client.readBuf = none) :
    handleReadable chat tok evs = .ok (chat.setClient tok { client with readBuf := [] }) ∧
    (chat.setClient tok { client with readBuf := [] }).getClient tok =
      some { client with readBuf := [] } ∧
    (∀ k, k ≠ tok →
      (chat.setClient tok { client with readBuf := [] }).getClient k = chat.getClient k) := by
  have hsp : BUFLEN - client.readBuf.length = 0 := by rw [hfull]; omega
  have hrl : readLoop evs client = .ok (client, true) := by
    unfold readLoop
    rw [if_pos hsp]
  have hmid : (chat.setClient tok client).getClient tok = some client :=
    getClient_setClient_self client hg
  have hsc : scanLoop (client.readBuf.length + 1) (chat.setClient tok client) tok 0 =
      .ok (chat.setClient tok client) := by
    simp [scanLoop, hmid, hnl]
  refine ⟨?_, getClient_setClient_self _ hg, fun k hk => getClient_setClient_ne hk chat _⟩
  simp only [handleReadable, hg, hrl, hsc, hmid]
  rw [if_pos trivial]
  simp [Chat.setClient, setC_setC]

/-- C10, witness: a client whose 4096-byte accumulator is full of 'a'
bytes, with an empty event list (the read never reaches the stream). -/
theorem full_buffer_read_as_close_wit :
    handleReadable (Chat.mk [(1, Client.mk [] (List.replicate 4096 97) [] false [])] 1) 1 [] =
      .ok ((Chat.mk [(1, Client.mk [] (List.replicate 4096 97) [] false [])] 1).setClient 1
        { Client.mk [] (List.replicate 4096 97) [] false [] with readBuf := [] }) :=
  (full_buffer_read_as_close
    (Chat.mk [(1, Client.mk [] (List.replicate 4096 97) [] false [])] 1) 1
    (Client.mk [] (List.replicate 4096 97) [] false []) [] rfl
    (show (List.replicate 4096 97).length = BUFLEN by rw [List.length_replicate]; rfl)
    (findNL_replicate 4096)).1

end Smallchat
